import Mathlib

/-!
Verification of `crsc::fixed_matrix` (crescent_library, `fixed_matrix.h`).

The C++ container stores an `R × C` matrix as a flat `std::array<T, R*C>` in
row-major order: element `(i, j)` lives at flat index `i*C + j`.  We embed a
matrix as a flat `List ℤ` together with its dimensions `R`, `C`; the
well-formedness fact `length = R*C` (guaranteed in C++ by the type) is carried
as a hypothesis of the theorems.  Member functions that throw C++ exceptions
are embedded in `Except String`, the string being the exception message; all
other member functions are pure.  Each definition below is a direct
transcription of the corresponding member of `fixed_matrix` (loops become
structural recursion or folds over `List.range`, threading the local mutable
variables of the C++ body as explicit state).
-/

/-- Unchecked element access `mtx[i*C + j]`, i.e. `fixed_matrix::operator()`
(also the double-subscript proxy `operator[][]`).  An out-of-range read is
undefined behaviour in C++; the embedding returns the junk value `0` there,
and every theorem only relies on in-range reads. -/
def fm_index (C : Nat) (m : List ℤ) (i j : Nat) : ℤ :=
  m.getD (i * C + j) 0

/-- `fixed_matrix::at(_row_index, _col_index)`: bounds-checked access.  Throws
`std::out_of_range` with the message below when `_row_index >= _Rows` or
`_col_index >= _Cols`; otherwise defers to `std::array::at` on the flat index
`_row_index*_Cols + _col_index` (which performs its own range check). -/
def fm_at (R C : Nat) (m : List ℤ) (i j : Nat) : Except String ℤ :=
  if R ≤ i ∨ C ≤ j then .error "fixed_matrix index out of bounds."
  else
    match m.get? (i * C + j) with
    | some v => .ok v
    | none => .error "array::at out of range"

/-- Inner (column) loop of `fixed_matrix::submatrix`.  Arguments after the
removal indices `ri`, `ci` and the current row `i`: remaining iteration count
(the C++ loop runs `j` from `0` while `j < _Cols - 1`), the current column
`j`, and the values of the C++ locals `row_erased` and `col_erased`.  Each
iteration mirrors the loop body: first `row_erased`/`col_erased` are updated,
then the element is read with the throwing accessor `at`.  The write
`sub.at(i, j)` is always in range (`i < _Rows-1`, `j < _Cols-1` are the loop
bounds), so it is embedded as consing onto the produced row.  Returns the row
of the submatrix together with the final value of `row_erased`. -/
def sub_inner (R C : Nat) (m : List ℤ) (ri ci i : Nat) :
    Nat → Nat → Nat → Nat → Except String (List ℤ × Nat)
  | 0, _, re, _ => .ok ([], re)
  | n+1, j, re, ce =>
    let re' := if i = ri then 1 else re
    let ce' := if j = ci then 1 else ce
    match fm_at R C m (i + re') (j + ce') with
    | .error e => .error e
    | .ok v =>
      match sub_inner R C m ri ci i n (j+1) re' ce' with
      | .error e => .error e
      | .ok p => .ok (v :: p.1, p.2)

/-- Outer (row) loop of `fixed_matrix::submatrix`: remaining iteration count,
current row `i`, and the value of the C++ local `row_erased` (which persists
across rows, while `col_erased` is reset to `0` at the head of each row). -/
def sub_outer (R C : Nat) (m : List ℤ) (ri ci : Nat) :
    Nat → Nat → Nat → Except String (List ℤ)
  | 0, _, _ => .ok []
  | n+1, i, re =>
    match sub_inner R C m ri ci i (C - 1) 0 re 0 with
    | .error e => .error e
    | .ok p =>
      match sub_outer R C m ri ci n (i+1) p.2 with
      | .error e => .error e
      | .ok rest => .ok (p.1 ++ rest)

/-- `fixed_matrix::submatrix(_row_index, _col_index)`: builds the
`(_Rows-1) × (_Cols-1)` matrix by the double loop above, starting with
`row_erased = 0`. -/
def fm_submatrix (R C : Nat) (m : List ℤ) (ri ci : Nat) : Except String (List ℤ) :=
  sub_outer R C m ri ci (R - 1) 0 0

/-- `fixed_matrix::trace()`: throws `std::logic_error` when `_Rows ≠ _Cols`,
otherwise sums `mtx[i*(_Cols+1)]` for `i` in `[0, _Rows)` starting from the
value-initialised `value_type()` (zero). -/
def fm_trace (R C : Nat) (m : List ℤ) : Except String ℤ :=
  if R ≠ C then .error "cannot compute trace() of non-square matrix."
  else .ok ((List.range R).foldl (fun acc i => acc + m.getD (i * (C + 1)) 0) 0)

/-- `fixed_matrix::operator+=` / the copying `operator+`: element-wise sum of
the two flat arrays (both have exactly `_Rows*_Cols` elements). -/
def fm_add (A B : List ℤ) : List ℤ := List.zipWith (· + ·) A B

/-- `fixed_matrix::operator-=` / the copying `operator-`: element-wise
difference of the two flat arrays. -/
def fm_sub (A B : List ℤ) : List ℤ := List.zipWith (· - ·) A B

/-- `fixed_matrix::operator==`: `std::equal` over the two flat arrays (the
`this != &_other` self-comparison shortcut returns `true`, which coincides
with the element-wise comparison of a value with itself). -/
def fm_eq (A B : List ℤ) : Bool :=
  (List.zipWith (fun a b => a == b) A B).all (fun x => x)

/-- `fixed_matrix::operator!=`: negation of `operator==`. -/
def fm_ne (A B : List ℤ) : Bool := ! fm_eq A B

/-- `fixed_matrix::operator*` on `A : R × K` and `B : K2 × C2` matrices.
Transcribed exactly as written in the source: the product starts
value-initialised (all zeros) and the loop body is
`product(i, j) += (*this)(i, j) * _other(i, j)` — note that it reads
`(i, j)` from both operands, not `(i, k)` and `(k, j)`. -/
def fm_mul (R K C2 : Nat) (A B : List ℤ) : List ℤ :=
  (List.range R).flatMap fun i => (List.range C2).map fun j =>
    (List.range K).foldl (fun acc _k => acc + fm_index K A i j * fm_index C2 B i j) 0

/-- One `std::copy(el.begin(), el.end(), it)` of the initializer-list
constructor: overwrite `el.length` elements of `buf` starting at `pos`. -/
def listCopyAt (buf : List ℤ) (pos : Nat) (el : List ℤ) : List ℤ :=
  buf.take pos ++ el ++ buf.drop (pos + el.length)

/-- The nested-initializer-list constructor
`fixed_matrix(std::initializer_list<std::initializer_list<value_type>>)`:
throws `std::invalid_argument` when the outer list size differs from `_Rows`
or the size of the *first* inner list differs from `_Cols` (the sizes of the
later inner lists are never examined); otherwise copies each inner list into
the flat storage, advancing the cursor by `_Cols` per row.  The storage is
default-initialised (indeterminate for arithmetic types), embedded as the
parameter `buf0`; `init.headD []` embeds `_init_list.begin()->size()` (whose
evaluation is undefined behaviour only in the `_Rows = 0` corner where the
outer size check can pass on an empty list). -/
def fm_from_init (R C : Nat) (buf0 : List ℤ) (init : List (List ℤ)) :
    Except String (List ℤ) :=
  if init.length ≠ R ∨ (init.headD []).length ≠ C then
    .error "_init_list dimensions not consistent with fixed_matrix dimensions."
  else
    .ok (init.foldl (fun acc el => (listCopyAt acc.1 acc.2 el, acc.2 + C)) (buf0, 0)).1

/-- Recursion underlying `fixed_matrix::write`: for each element (row-major),
emit the element, then the delimiter, then — once the post-increment counter
becomes divisible by `_Cols` — a newline. -/
def fm_write_go (C : Nat) (d : Char) : List ℤ → Nat → String
  | [], _ => ""
  | el :: rest, cnt =>
    toString el ++ d.toString ++ (if (cnt + 1) % C = 0 then "\n" else "")
      ++ fm_write_go C d rest (cnt + 1)

/-- `fixed_matrix::write(_os, _delim)`: the stream output produced by the
loop, with the counter starting at `0`. -/
def fm_write (C : Nat) (m : List ℤ) (d : Char) : String :=
  fm_write_go C d m 0

/-- Concatenation of a list of strings (used to state the closed form of
`fm_write`). -/
def strConcat : List String → String
  | [] => ""
  | s :: rest => s ++ strConcat rest

/-- Modelled from the spec: `make_identity_matrix<T, N, N>()` is documented to
produce an N×N matrix with 1 on the diagonal and 0 elsewhere.  The source
body is ill-formed C++ (the declaration `fixed_matrix<_Ty, _rows, _cols>
identity_matrix();` is a function declaration — the "most vexing parse" — so
the subsequent subscript-assignments and the return do not compile), hence
the *intended* body is modelled: a default-constructed (value-initialised,
all-zero) matrix whose diagonal cells are then assigned `1` by the double
loop `for i, for j, if (i == j) identity_matrix[i][j] = 1`. -/
def make_identity_intended (N : Nat) : List ℤ :=
  (List.range N).foldl
    (fun acc i =>
      (List.range N).foldl
        (fun acc2 j => if i = j then acc2.set (i * N + j) 1 else acc2) acc)
    (List.replicate (N * N) 0)

/-! ## Helper lemmas -/

theorem index_lt {R C i j : Nat} (hi : i < R) (hj : j < C) : i * C + j < R * C := by
  have h1 : i * C + j < (i + 1) * C := by
    have : (i + 1) * C = i * C + C := by ring
    omega
  have h2 : (i + 1) * C ≤ R * C := Nat.mul_le_mul_right C hi
  omega

theorem fm_at_ok {R C : Nat} {m : List ℤ} {i j : Nat}
    (hi : i < R) (hj : j < C) (hm : R * C ≤ m.length) :
    fm_at R C m i j = .ok (fm_index C m i j) := by
  have hidx : i * C + j < m.length := lt_of_lt_of_le (index_lt hi hj) hm
  have h1 : m.get? (i * C + j) = some (m.getD (i * C + j) 0) := by
    rw [List.getD_eq_getD_get?]
    cases h2 : m.get? (i * C + j) with
    | none => exact absurd (List.get?_eq_none.mp h2) (by omega)
    | some v => rfl
  unfold fm_at
  rw [if_neg (by omega), h1]
  rfl

theorem foldl_add_eq_sum (g : Nat → ℤ) :
    ∀ (l : List Nat) (a : ℤ), l.foldl (fun acc i => acc + g i) a = a + (l.map g).sum
  | [], a => by simp
  | i :: l, a => by
    simp only [List.foldl_cons, List.map_cons, List.sum_cons]
    rw [foldl_add_eq_sum g l (a + g i)]
    ring

theorem zip_add_sub_cancel (A : List ℤ) : ∀ (B : List ℤ), A.length = B.length →
    fm_sub (fm_add A B) B = A := by
  induction A with
  | nil => intro B h; cases B <;> simp_all [fm_add, fm_sub]
  | cons a A ih =>
    intro B h
    cases B with
    | nil => simp at h
    | cons b B =>
      have h' : A.length = B.length := by simpa using h
      have hrec := ih B h'
      simp only [fm_add, fm_sub, List.zipWith_cons_cons] at hrec ⊢
      rw [hrec, add_sub_cancel_right]

theorem fm_eq_iff (A : List ℤ) : ∀ (B : List ℤ), A.length = B.length →
    (fm_eq A B = true ↔ A = B) := by
  induction A with
  | nil => intro B h; cases B <;> simp_all [fm_eq]
  | cons a A ih =>
    intro B h
    cases B with
    | nil => simp at h
    | cons b B =>
      have h' : A.length = B.length := by simpa using h
      have hrec := ih B h'
      simp only [fm_eq] at hrec
      simp [fm_eq, List.zipWith_cons_cons, beq_iff_eq, hrec]

theorem fm_eq_refl (A : List ℤ) : fm_eq A A = true :=
  (fm_eq_iff A A rfl).mpr rfl

theorem fm_eq_symm (A B : List ℤ) (h : A.length = B.length) : fm_eq A B = fm_eq B A := by
  by_cases hab : A = B
  · subst hab; rfl
  · have h1 : fm_eq A B = false := by
      cases hfe : fm_eq A B
      · rfl
      · exact absurd ((fm_eq_iff A B h).mp hfe) hab
    have h2 : fm_eq B A = false := by
      cases hfe : fm_eq B A
      · rfl
      · exact absurd ((fm_eq_iff B A h.symm).mp hfe).symm hab
    rw [h1, h2]

theorem getD_ext (A : List ℤ) : ∀ (B : List ℤ), A.length = B.length →
    (∀ k, k < A.length → A.getD k 0 = B.getD k 0) → A = B := by
  induction A with
  | nil =>
    intro B h _
    cases B with
    | nil => rfl
    | cons b B => simp at h
  | cons a A ih =>
    intro B h hk
    cases B with
    | nil => simp at h
    | cons b B =>
      have h0 := hk 0 (by simp)
      simp only [List.getD_cons_zero] at h0
      have htail : A = B := by
        refine ih B (by simpa using h) (fun k hlt => ?_)
        have := hk (k + 1) (by simp; omega)
        simpa [List.getD_cons_succ] using this
      rw [h0, htail]

theorem fm_write_go_eq (C : Nat) (d : Char) :
    ∀ (m : List ℤ) (n : Nat),
      fm_write_go C d m n = strConcat ((List.range m.length).map fun k =>
        toString (m.getD k 0) ++ d.toString ++ if (n + k + 1) % C = 0 then "\n" else "")
  | [], n => by simp [fm_write_go, strConcat]
  | el :: rest, n => by
    rw [fm_write_go, fm_write_go_eq C d rest (n + 1)]
    simp only [List.length_cons, List.range_succ_eq_map, List.map_cons, List.map_map,
      strConcat, List.getD_cons_zero, Nat.add_zero]
    have hmap :
        List.map ((fun k => toString ((el :: rest).getD k 0) ++ d.toString ++
            if (n + k + 1) % C = 0 then "\n" else "") ∘ Nat.succ) (List.range rest.length) =
        List.map (fun k => toString (rest.getD k 0) ++ d.toString ++
            if (n + 1 + k + 1) % C = 0 then "\n" else "") (List.range rest.length) := by
      apply List.map_congr_left
      intro k _
      simp only [Function.comp_apply, Nat.succ_eq_add_one, List.getD_cons_succ]
      have harith : n + (k + 1) + 1 = n + 1 + k + 1 := by omega
      rw [harith]
    rw [hmap]

/-! ## Claim theorems (first group) -/

/-- Claim C1 (code bug): evaluating the transcription of `operator*` on the
spec's own example.  Because the inner loop accumulates
`(*this)(i, j) * _other(i, j)` instead of `(*this)(i, k) * _other(k, j)`,
the 2×3 matrix [[1,2,3],[4,5,6]] times the 3×2 matrix [[7,8],[9,10],[11,12]]
evaluates to [[21,48],[108,150]] (each cell is `K * A(i,j) * B(i,j)`), not to
the claimed [[58,64],[139,154]]. -/
theorem fm_mul_bug_eval :
    fm_mul 2 3 2 [1, 2, 3, 4, 5, 6] [7, 8, 9, 10, 11, 12] = [21, 48, 108, 150] ∧
    ([21, 48, 108, 150] : List ℤ) ≠ [58, 64, 139, 154] := by
  decide

/-- Claim C4: `at(row, col)` on an `R × C` matrix raises the out-of-range
error exactly when `row ≥ R` or `col ≥ C` (in particular at `(R,0)`, `(0,C)`,
`(R,C)`), and otherwise returns the element at flat index `row*C + col`.
The embedding is pure, so failure cannot modify the matrix. -/
theorem fm_at_spec : ∀ (R C : Nat) (m : List ℤ) (i j : Nat), m.length = R * C →
    ((fm_at R C m i j = .error "fixed_matrix index out of bounds.") ↔ (R ≤ i ∨ C ≤ j)) ∧
    (i < R → j < C → fm_at R C m i j = .ok (m.getD (i * C + j) 0)) := by
  intro R C m i j hm
  have hok : i < R → j < C → fm_at R C m i j = .ok (m.getD (i * C + j) 0) := by
    intro hi hj
    exact fm_at_ok hi hj (le_of_eq hm.symm)
  refine ⟨⟨?_, ?_⟩, hok⟩
  · intro herr
    by_contra hcon
    push_neg at hcon
    rw [hok (by omega) (by omega)] at herr
    exact Except.noConfusion herr
  · intro hor
    unfold fm_at
    rw [if_pos hor]

/-- Witness for C4: on the 2×2 matrix [[1,2],[3,4]], `at(2,0)`, `at(0,2)` and
`at(2,2)` all raise the out-of-range error, while `at(1,0)` returns 3. -/
theorem fm_at_spec_witness :
    fm_at 2 2 ([1, 2, 3, 4] : List ℤ) 2 0 = .error "fixed_matrix index out of bounds." ∧
    fm_at 2 2 ([1, 2, 3, 4] : List ℤ) 0 2 = .error "fixed_matrix index out of bounds." ∧
    fm_at 2 2 ([1, 2, 3, 4] : List ℤ) 2 2 = .error "fixed_matrix index out of bounds." ∧
    fm_at 2 2 ([1, 2, 3, 4] : List ℤ) 1 0 = .ok 3 :=
  ⟨(fm_at_spec 2 2 [1, 2, 3, 4] 2 0 (by decide)).1.mpr (Or.inl (by decide)),
   (fm_at_spec 2 2 [1, 2, 3, 4] 0 2 (by decide)).1.mpr (Or.inr (by decide)),
   (fm_at_spec 2 2 [1, 2, 3, 4] 2 2 (by decide)).1.mpr (Or.inl (by decide)),
   by rw [(fm_at_spec 2 2 [1, 2, 3, 4] 1 0 (by decide)).2 (by decide) (by decide)]; rfl⟩

/-- Claim C6: for same-shape integer matrices, `(A + B) - B = A`, both as
flat storage equality and under the container's own `operator==`. -/
theorem fm_add_sub_spec : ∀ (R C : Nat) (A B : List ℤ),
    A.length = R * C → B.length = R * C →
    fm_sub (fm_add A B) B = A ∧ fm_eq (fm_sub (fm_add A B) B) A = true := by
  intro R C A B hA hB
  have h := zip_add_sub_cancel A B (by omega)
  exact ⟨h, by rw [h]; exact fm_eq_refl A⟩

/-- Witness for C6 at a concrete 2×2 pair. -/
theorem fm_add_sub_spec_witness :
    fm_sub (fm_add [1, 2, 3, 4] [5, 6, 7, 8]) [5, 6, 7, 8] = ([1, 2, 3, 4] : List ℤ) ∧
    fm_eq (fm_sub (fm_add [1, 2, 3, 4] [5, 6, 7, 8]) [5, 6, 7, 8]) [1, 2, 3, 4] = true :=
  fm_add_sub_spec 2 2 [1, 2, 3, 4] [5, 6, 7, 8] (by decide) (by decide)

/-- Claim C7: `operator==` on same-shape matrices is true iff every
corresponding element is equal; it is reflexive and symmetric, and
`operator!=` is its negation. -/
theorem fm_eq_spec : ∀ (R C : Nat) (A B : List ℤ),
    A.length = R * C → B.length = R * C →
    ((fm_eq A B = true) ↔ (∀ k, k < R * C → A.getD k 0 = B.getD k 0)) ∧
    fm_eq A A = true ∧ fm_eq A B = fm_eq B A ∧ fm_ne A B = ! fm_eq A B := by
  intro R C A B hA hB
  refine ⟨⟨?_, ?_⟩, fm_eq_refl A, fm_eq_symm A B (by omega), rfl⟩
  · intro he k _
    rw [(fm_eq_iff A B (by omega)).mp he]
  · intro hk
    exact (fm_eq_iff A B (by omega)).mpr
      (getD_ext A B (by omega) (fun k hkA => hk k (by omega)))

/-- Witness for C7 on the unequal 2×2 pair [[1,2],[3,4]] and [[1,2],[3,5]]. -/
theorem fm_eq_spec_witness :
    ((fm_eq [1, 2, 3, 4] [1, 2, 3, 5] = true) ↔
      (∀ k, k < 2 * 2 → ([1, 2, 3, 4] : List ℤ).getD k 0 = ([1, 2, 3, 5] : List ℤ).getD k 0)) ∧
    fm_eq ([1, 2, 3, 4] : List ℤ) [1, 2, 3, 4] = true ∧
    fm_eq ([1, 2, 3, 4] : List ℤ) [1, 2, 3, 5] = fm_eq [1, 2, 3, 5] [1, 2, 3, 4] ∧
    fm_ne ([1, 2, 3, 4] : List ℤ) [1, 2, 3, 5] = ! fm_eq [1, 2, 3, 4] [1, 2, 3, 5] :=
  fm_eq_spec 2 2 [1, 2, 3, 4] [1, 2, 3, 5] (by decide) (by decide)

/-- Claim C8: `write(stream, delim)` emits the elements in row-major order,
each immediately followed by the delimiter, with a newline after every C-th
element; on the 2×2 matrix [[1,2],[3,4]] with delimiter ' ' it produces
exactly "1 2 \n3 4 \n". -/
theorem fm_write_spec :
    (∀ (C : Nat) (m : List ℤ) (d : Char),
      fm_write C m d = strConcat ((List.range m.length).map fun k =>
        toString (m.getD k 0) ++ d.toString ++ if (k + 1) % C = 0 then "\n" else "")) ∧
    fm_write 2 [1, 2, 3, 4] ' ' = "1 2 \n3 4 \n" := by
  refine ⟨fun C m d => ?_, by decide⟩
  have h := fm_write_go_eq C d m 0
  simpa using h

/-- Claim C9: the nested-initializer-list constructor throws
`std::invalid_argument` exactly when the outer list size differs from `R` or
the first inner list's size differs from `C`; later rows are unchecked, so a
ragged source whose first row has length `C` is accepted. -/
theorem fm_from_init_spec :
    (∀ (R C : Nat) (buf0 : List ℤ) (init : List (List ℤ)),
      (fm_from_init R C buf0 init =
          .error "_init_list dimensions not consistent with fixed_matrix dimensions." ↔
        (init.length ≠ R ∨ (init.headD []).length ≠ C))) ∧
    (∃ L, fm_from_init 2 2 [0, 0, 0, 0] [[1, 2], [3, 4, 5]] = .ok L) := by
  constructor
  · intro R C buf0 init
    unfold fm_from_init
    split
    · next h => exact iff_of_true rfl h
    · next h => exact iff_of_false (fun hc => Except.noConfusion hc) h
  · exact ⟨[1, 2, 3, 4, 5], rfl⟩

/-! ## Submatrix loop characterisation -/

theorem sub_inner_eq (R C : Nat) (m : List ℤ) (ri ci i : Nat) (hm : m.length = R * C) :
    ∀ (n : Nat), ∀ (j re ce : Nat),
      j + n ≤ C - 1 →
      i + (if i = ri then 1 else re) < R →
      ce = (if ci < j then 1 else 0) →
      sub_inner R C m ri ci i n j re ce =
        .ok (((List.range' j n).map fun t =>
            fm_index C m (i + if i = ri then 1 else re) (t + if ci ≤ t then 1 else 0)),
          if n = 0 then re else if i = ri then 1 else re) := by
  intro n
  induction n with
  | zero =>
    intro j re ce _ _ _
    simp [sub_inner]
  | succ n ih =>
    intro j re ce hj hre hce
    have hC2 : 2 ≤ C := by omega
    have hjC : j + (if j = ci then 1 else ce) < C := by
      subst hce
      by_cases h1 : j = ci <;> by_cases h2 : ci < j <;> simp [h1, h2] <;> omega
    have hat := fm_at_ok (R := R) (C := C) (m := m) hre hjC (le_of_eq hm.symm)
    have hce' : (if j = ci then 1 else ce) = if ci ≤ j then 1 else 0 := by
      subst hce
      by_cases h1 : j = ci <;> by_cases h2 : ci ≤ j <;> simp [h1, h2] <;> omega
    have hre' : (if i = ri then 1 else (if i = ri then 1 else re)) =
        (if i = ri then 1 else re) := by
      by_cases h1 : i = ri <;> simp [h1]
    have hrec := ih (j + 1) (if i = ri then 1 else re) (if j = ci then 1 else ce)
      (by omega)
      (by rw [hre']; exact hre)
      (by
        rw [hce']
        by_cases h2 : ci ≤ j <;> by_cases h3 : ci < j + 1 <;> simp [h2, h3] <;> omega)
    simp only [sub_inner]
    rw [hat, hrec]
    rw [List.range'_succ, List.map_cons]
    simp only [hre', hce']
    cases n with
    | zero => simp
    | succ n => simp

theorem sub_outer_eq (R C : Nat) (m : List ℤ) (ri ci : Nat) (hm : m.length = R * C) :
    ∀ (n : Nat), ∀ (i re : Nat),
      i + n ≤ R - 1 →
      re = (if 1 ≤ C - 1 ∧ ri < i then 1 else 0) →
      sub_outer R C m ri ci n i re =
        .ok ((List.range' i n).flatMap fun t =>
          (List.range (C - 1)).map fun k =>
            fm_index C m (t + if ri ≤ t then 1 else 0) (k + if ci ≤ k then 1 else 0)) := by
  intro n
  induction n with
  | zero =>
    intro i re _ _
    simp [sub_outer]
  | succ n ih =>
    intro i re hi hre
    have hre1 : re ≤ 1 := by rw [hre]; split <;> omega
    by_cases hC : 1 ≤ C - 1
    · have hiR' : i + (if i = ri then 1 else re) < R := by
        by_cases hir : i = ri
        · rw [if_pos hir]; omega
        · rw [if_neg hir]; omega
      have hinner := sub_inner_eq R C m ri ci i hm (C - 1) 0 re 0 (by omega) hiR' (by simp)
      have hco : (if i = ri then 1 else re) = (if ri ≤ i then 1 else 0) := by
        by_cases hir : i = ri
        · rw [if_pos hir, if_pos (by omega)]
        · rw [if_neg hir, hre]
          by_cases hri : ri < i
          · rw [if_pos ⟨hC, hri⟩, if_pos (by omega)]
          · rw [if_neg (by rintro ⟨_, h2⟩; omega), if_neg (by omega)]
      have hre'inv : (if i = ri then 1 else re) = (if 1 ≤ C - 1 ∧ ri < i + 1 then 1 else 0) := by
        rw [hco]
        by_cases h : ri ≤ i
        · rw [if_pos h, if_pos ⟨hC, by omega⟩]
        · rw [if_neg h, if_neg (by rintro ⟨_, h2⟩; omega)]
      have hrec := ih (i + 1) (if i = ri then 1 else re) (by omega) hre'inv
      simp only [sub_outer]
      rw [hinner]
      simp only []
      rw [if_neg (by omega : ¬ C - 1 = 0), hrec]
      rw [List.range'_succ, List.flatMap_cons, List.range_eq_range']
      rw [hco]
    · have hC0 : C - 1 = 0 := by omega
      have hrec := ih (i + 1) re (by omega)
        (by rw [hre, if_neg (fun hcon => hC hcon.1), if_neg (fun hcon => hC hcon.1)])
      simp only [sub_outer, hC0]
      simp only [sub_inner]
      rw [hrec]
      rw [List.range'_succ, List.flatMap_cons]
      simp [hC0]

theorem fm_submatrix_closed (R C : Nat) (m : List ℤ) (ri ci : Nat) (hm : m.length = R * C) :
    fm_submatrix R C m ri ci =
      .ok ((List.range (R - 1)).flatMap fun t =>
        (List.range (C - 1)).map fun k =>
          fm_index C m (t + if ri ≤ t then 1 else 0) (k + if ci ≤ k then 1 else 0)) := by
  unfold fm_submatrix
  rw [List.range_eq_range']
  exact sub_outer_eq R C m ri ci hm (R - 1) 0 0 (by omega) (by simp)

theorem flat_length (R C : Nat) (f : Nat → Nat → ℤ) :
    ((List.range R).flatMap fun t => (List.range C).map fun k => f t k).length = R * C := by
  induction R with
  | zero => simp
  | succ R ih =>
    rw [List.range_succ, List.flatMap_append, List.flatMap_singleton]
    simp only [List.length_append, List.length_map, List.length_range, ih]
    rw [Nat.succ_mul]

theorem flat_getD (R C : Nat) (f : Nat → Nat → ℤ) (i j : Nat) (hi : i < R) (hj : j < C) :
    ((List.range R).flatMap fun t => (List.range C).map fun k => f t k).getD (i * C + j) 0 =
      f i j := by
  induction R with
  | zero => omega
  | succ R ih =>
    rw [List.range_succ, List.flatMap_append, List.flatMap_singleton]
    by_cases hiR : i < R
    · have hlt : i * C + j < ((List.range R).flatMap fun t => (List.range C).map fun k => f t k).length := by
        rw [flat_length]
        exact index_lt hiR hj
      rw [List.getD_eq_getD_get?, List.get?_append hlt, ← List.getD_eq_getD_get?]
      exact ih hiR
    · have hie : i = R := by omega
      subst hie
      have hge : ((List.range i).flatMap fun t => (List.range C).map fun k => f t k).length ≤ i * C + j := by
        rw [flat_length]
        omega
      rw [List.getD_eq_getD_get?, List.get?_append_right hge, flat_length]
      have hsub : i * C + j - i * C = j := by omega
      rw [hsub, List.get?_map, List.get?_range hj]
      rfl

/-! ## Submatrix claim theorems -/

/-- Claim C2: for `R > 0`, `C > 0`, `ri < R`, `ci < C`, `submatrix(ri, ci)`
returns an `(R-1) × (C-1)` matrix whose element `(i, j)` is the source
element at row `i` (shifted past `ri` when `ri ≤ i`) and column `j` (shifted
past `ci` when `ci ≤ j`) — i.e. exactly the source elements outside row `ri`
and column `ci` in their relative row-major order.  Concretely, on the 3×3
matrix [[1,2,3],[4,5,6],[7,8,9]], `submatrix(1,1)` yields [[1,3],[7,9]]. -/
theorem fm_submatrix_spec :
    (∀ (R C : Nat) (m : List ℤ) (ri ci : Nat), m.length = R * C → ri < R → ci < C →
      ∃ L, fm_submatrix R C m ri ci = .ok L ∧ L.length = (R - 1) * (C - 1) ∧
        ∀ i j, i < R - 1 → j < C - 1 →
          fm_index (C - 1) L i j =
            fm_index C m (i + if ri ≤ i then 1 else 0) (j + if ci ≤ j then 1 else 0)) ∧
    fm_submatrix 3 3 [1, 2, 3, 4, 5, 6, 7, 8, 9] 1 1 = .ok [1, 3, 7, 9] := by
  constructor
  · intro R C m ri ci hm _ _
    refine ⟨_, fm_submatrix_closed R C m ri ci hm, flat_length _ _ _, ?_⟩
    intro i j hi hj
    exact flat_getD (R - 1) (C - 1) _ i j hi hj
  · rfl

/-- Witness for C2: the claim's own 3×3 example, obtained by instantiating
the universal statement at the concrete matrix. -/
theorem fm_submatrix_spec_witness :
    ∃ L, fm_submatrix 3 3 [1, 2, 3, 4, 5, 6, 7, 8, 9] 1 1 = .ok L ∧
      L.length = 4 ∧
      ∀ i j, i < 2 → j < 2 →
        fm_index 2 L i j =
          fm_index 3 [1, 2, 3, 4, 5, 6, 7, 8, 9]
            (i + if 1 ≤ i then 1 else 0) (j + if 1 ≤ j then 1 else 0) :=
  fm_submatrix_spec.1 3 3 [1, 2, 3, 4, 5, 6, 7, 8, 9] 1 1 (by decide) (by decide) (by decide)

/-- Claim C10: for `R > 0`, `C > 0`, `submatrix(ri, ci)` is total — it
returns a result (never throws) for every pair of indices, including
out-of-range ones — and when `ri ≥ R-1` it behaves as if the last row were
removed (same result as removal index `R-1`), and when `ci ≥ C-1` as if the
last column were removed, because each skip offset is only ever set when the
walk over the reduced grid reaches the removal index. -/
theorem fm_submatrix_total :
    ∀ (R C : Nat) (m : List ℤ), m.length = R * C → 1 ≤ R → 1 ≤ C →
      ∀ (ri ci : Nat),
        (∃ L, fm_submatrix R C m ri ci = .ok L) ∧
        (R - 1 ≤ ri → fm_submatrix R C m ri ci = fm_submatrix R C m (R - 1) ci) ∧
        (C - 1 ≤ ci → fm_submatrix R C m ri ci = fm_submatrix R C m ri (C - 1)) := by
  intro R C m hm _ _ ri ci
  refine ⟨⟨_, fm_submatrix_closed R C m ri ci hm⟩, ?_, ?_⟩
  · intro hri
    rw [fm_submatrix_closed R C m ri ci hm, fm_submatrix_closed R C m (R - 1) ci hm]
    congr 1
    rw [List.flatMap_def, List.flatMap_def]
    congr 1
    apply List.map_congr_left
    intro t ht
    have htR := List.mem_range.mp ht
    have hcond : (if ri ≤ t then 1 else 0) = (if R - 1 ≤ t then 1 else 0) := by
      rw [if_neg (by omega), if_neg (by omega)]
    rw [hcond]
  · intro hci
    rw [fm_submatrix_closed R C m ri ci hm, fm_submatrix_closed R C m ri (C - 1) hm]
    congr 1
    rw [List.flatMap_def, List.flatMap_def]
    congr 1
    apply List.map_congr_left
    intro t _
    apply List.map_congr_left
    intro k hk
    have hkC := List.mem_range.mp hk
    have hcond : (if ci ≤ k then 1 else 0) = (if C - 1 ≤ k then 1 else 0) := by
      rw [if_neg (by omega), if_neg (by omega)]
    rw [hcond]

/-- Witness for C10: on the 2×2 matrix [[1,2],[3,4]] with both removal
indices far out of range (5, 7), `submatrix` still succeeds and agrees with
removing the last row and the last column respectively. -/
theorem fm_submatrix_total_witness :
    (∃ L, fm_submatrix 2 2 [1, 2, 3, 4] 5 7 = .ok L) ∧
    fm_submatrix 2 2 [1, 2, 3, 4] 5 7 = fm_submatrix 2 2 [1, 2, 3, 4] 1 7 ∧
    fm_submatrix 2 2 [1, 2, 3, 4] 5 7 = fm_submatrix 2 2 [1, 2, 3, 4] 5 1 := by
  have h := fm_submatrix_total 2 2 [1, 2, 3, 4] (by decide) (by decide) (by decide) 5 7
  exact ⟨h.1, h.2.1 (by decide), h.2.2 (by decide)⟩

/-! ## Identity matrix and trace -/

theorem flatIdx_div_mod {C i j : Nat} (hj : j < C) :
    (i * C + j) / C = i ∧ (i * C + j) % C = j := by
  have hC : 0 < C := by omega
  constructor
  · rw [Nat.add_comm, Nat.mul_comm, Nat.add_mul_div_left _ _ hC, Nat.div_eq_of_lt hj]
    omega
  · rw [Nat.add_comm, Nat.mul_comm, Nat.add_mul_mod_self_left, Nat.mod_eq_of_lt hj]

theorem flatIdx_inj {C i j u v : Nat} (hj : j < C) (hv : v < C)
    (h : i * C + j = u * C + v) : i = u ∧ j = v := by
  have d1 := flatIdx_div_mod (i := i) hj
  have d2 := flatIdx_div_mod (i := u) hv
  rw [h] at d1
  exact ⟨d1.1.symm.trans d2.1, d1.2.symm.trans d2.2⟩

theorem getD_set_self {l : List ℤ} {n : Nat} {a d : ℤ} (h : n < l.length) :
    (l.set n a).getD n d = a := by
  rw [List.getD_eq_getD_get?, List.get?_set_eq]
  cases h2 : l.get? n with
  | none => exact absurd (List.get?_eq_none.mp h2) (by omega)
  | some v => rfl

theorem getD_set_ne {l : List ℤ} {n p : Nat} {a d : ℤ} (h : n ≠ p) :
    (l.set n a).getD p d = l.getD p d := by
  rw [List.getD_eq_getD_get?, List.get?_set_ne _ _ h, ← List.getD_eq_getD_get?]

theorem getD_replicate_zero (p n : Nat) : (List.replicate n (0 : ℤ)).getD p 0 = 0 := by
  rw [List.getD_eq_getD_get?]
  cases h2 : (List.replicate n (0 : ℤ)).get? p with
  | none => rfl
  | some v =>
    have hv := List.eq_of_mem_replicate (List.get?_mem h2)
    rw [hv]
    rfl

theorem id_inner_foldl (N i : Nat) :
    ∀ (L : List Nat) (acc : List ℤ),
      (L.foldl (fun a j => if i = j then a.set (i * N + j) 1 else a) acc) =
        if i ∈ L then acc.set (i * N + i) 1 else acc := by
  intro L
  induction L with
  | nil => intro acc; simp
  | cons j L ih =>
    intro acc
    rw [List.foldl_cons]
    by_cases hij : i = j
    · subst hij
      rw [if_pos rfl, ih, if_pos (List.mem_cons_self i L)]
      by_cases hmem : i ∈ L
      · rw [if_pos hmem, List.set_set]
      · rw [if_neg hmem]
    · rw [if_neg hij, ih]
      by_cases hmem : i ∈ L
      · rw [if_pos hmem, if_pos (List.mem_cons_of_mem j hmem)]
      · rw [if_neg hmem, if_neg (by
          intro hc
          rcases List.mem_cons.mp hc with h | h
          · exact hij h
          · exact hmem h)]

theorem id_outer_getD (N : Nat) :
    ∀ (L : List Nat) (acc : List ℤ) (p : Nat) (d : ℤ),
      (∀ t ∈ L, t * N + t < acc.length) →
      ((L.foldl (fun a t =>
          (List.range N).foldl (fun a2 j => if t = j then a2.set (t * N + j) 1 else a2) a)
          acc).getD p d) =
        if ∃ t ∈ L, t < N ∧ p = t * N + t then 1 else acc.getD p d := by
  intro L
  induction L with
  | nil => intro acc p d _; simp
  | cons t L ih =>
    intro acc p d hb
    rw [List.foldl_cons, id_inner_foldl]
    by_cases htN : t < N
    · rw [if_pos (List.mem_range.mpr htN)]
      rw [ih _ p d (fun u hu => by
        rw [List.length_set]
        exact hb u (List.mem_cons_of_mem t hu))]
      by_cases hex : ∃ u ∈ L, u < N ∧ p = u * N + u
      · obtain ⟨u, hu, huN, hup⟩ := hex
        rw [if_pos ⟨u, hu, huN, hup⟩, if_pos ⟨u, List.mem_cons_of_mem t hu, huN, hup⟩]
      · rw [if_neg hex]
        by_cases hpt : p = t * N + t
        · rw [if_pos ⟨t, List.mem_cons_self t L, htN, hpt⟩, hpt,
            getD_set_self (hb t (List.mem_cons_self t L))]
        · rw [if_neg (by
            rintro ⟨u, hu, huN, hup⟩
            rcases List.mem_cons.mp hu with h | h
            · exact hpt (by rw [hup, h])
            · exact hex ⟨u, h, huN, hup⟩)]
          exact getD_set_ne (fun hc => hpt hc.symm)
    · rw [if_neg (fun hc => htN (List.mem_range.mp hc))]
      rw [ih _ p d (fun u hu => hb u (List.mem_cons_of_mem t hu))]
      by_cases hex : ∃ u ∈ L, u < N ∧ p = u * N + u
      · obtain ⟨u, hu, huN, hup⟩ := hex
        rw [if_pos ⟨u, hu, huN, hup⟩, if_pos ⟨u, List.mem_cons_of_mem t hu, huN, hup⟩]
      · rw [if_neg hex, if_neg (by
          rintro ⟨u, hu, huN, hup⟩
          rcases List.mem_cons.mp hu with h | h
          · exact htN (h ▸ huN)
          · exact hex ⟨u, h, huN, hup⟩)]

theorem make_identity_getD (N i j : Nat) (hi : i < N) (hj : j < N) :
    (make_identity_intended N).getD (i * N + j) 0 = if i = j then 1 else 0 := by
  unfold make_identity_intended
  rw [id_outer_getD N (List.range N) _ _ _ (fun t ht => by
    rw [List.length_replicate]
    exact index_lt (List.mem_range.mp ht) (List.mem_range.mp ht))]
  by_cases hij : i = j
  · subst hij
    rw [if_pos ⟨i, List.mem_range.mpr hi, hi, rfl⟩, if_pos rfl]
  · rw [if_neg (by
      rintro ⟨t, _, htN, hp⟩
      have hinj := flatIdx_inj hj htN hp
      exact hij (hinj.1.trans hinj.2.symm)), if_neg hij]
    exact getD_replicate_zero _ _

theorem fm_trace_ok (R : Nat) (m : List ℤ) :
    fm_trace R R m = .ok (((List.range R).map fun i => fm_index R m i i).sum) := by
  unfold fm_trace
  rw [if_neg (by simp), foldl_add_eq_sum, zero_add]
  have hmap : (List.map (fun i => m.getD (i * (R + 1)) 0) (List.range R)) =
      (List.map (fun i => fm_index R m i i) (List.range R)) := by
    apply List.map_congr_left
    intro k _
    unfold fm_index
    rw [Nat.mul_succ]
  rw [hmap]

/-- Claim C3: `trace()` raises the non-square error exactly when `R ≠ C`
(the embedding is pure, so nothing is modified on failure); when `R = C` it
returns the sum of the diagonal elements `(i, i)` for `i < R` (the code reads
them at flat index `i*(C+1) = i*C + i`); in particular the trace of the N×N
identity matrix is `N`. -/
theorem fm_trace_spec :
    (∀ (R C : Nat) (m : List ℤ), R ≠ C →
      fm_trace R C m = .error "cannot compute trace() of non-square matrix.") ∧
    (∀ (R : Nat) (m : List ℤ),
      fm_trace R R m = .ok (((List.range R).map fun i => fm_index R m i i).sum)) ∧
    (∀ N : Nat, fm_trace N N (make_identity_intended N) = .ok (N : ℤ)) := by
  refine ⟨fun R C m h => by unfold fm_trace; rw [if_pos h], fm_trace_ok, fun N => ?_⟩
  rw [fm_trace_ok]
  congr 1
  have hdiag : ∀ k ∈ List.range N, fm_index N (make_identity_intended N) k k = 1 := by
    intro k hk
    have hkN := List.mem_range.mp hk
    unfold fm_index
    rw [make_identity_getD N k k hkN hkN, if_pos rfl]
  rw [List.map_congr_left hdiag, List.map_const', List.length_range, List.sum_replicate]
  simp

/-- Witness for C3: `trace` on a 2×3 matrix raises the non-square error, and
the trace of the 3×3 identity matrix is 3. -/
theorem fm_trace_spec_witness :
    fm_trace 2 3 ([1, 2, 3, 4, 5, 6] : List ℤ) =
      .error "cannot compute trace() of non-square matrix." ∧
    fm_trace 3 3 (make_identity_intended 3) = .ok (3 : ℤ) :=
  ⟨fm_trace_spec.1 2 3 [1, 2, 3, 4, 5, 6] (by decide), fm_trace_spec.2.2 3⟩

/-- Claim C5 (code bug): the *intended* `make_identity_matrix<T, N, N>`
(modelled from its documentation, because the written body is ill-formed
C++ — see `make_identity_intended`) produces the matrix whose `(i, j)` entry
is 1 when `i = j` and 0 otherwise. -/
theorem make_identity_spec :
    ∀ (N i j : Nat), i < N → j < N →
      fm_index N (make_identity_intended N) i j = if i = j then 1 else 0 := by
  intro N i j hi hj
  unfold fm_index
  exact make_identity_getD N i j hi hj

/-- Witness for C5 at `N = 3`: the `(1,1)` entry is 1 and the `(1,2)` entry
is 0. -/
theorem make_identity_spec_witness :
    fm_index 3 (make_identity_intended 3) 1 1 = 1 ∧
    fm_index 3 (make_identity_intended 3) 1 2 = 0 := by
  constructor
  · have h := make_identity_spec 3 1 1 (by decide) (by decide)
    simpa using h
  · have h := make_identity_spec 3 1 2 (by decide) (by decide)
    simpa using h
